import Mathlib

/-!
# Formal model of the `smart_dumper` repository core

Shallow embedding, in Lean 4, of the parts of the `smart_dumper` Python
package that the specification's testable properties talk about:

* `xml_utils.chunk_lines_keepends` — line-preserving chunking of file text
  (with a faithful model of Python `str.splitlines(keepends=True)`);
* `gitignore_engine.GitIgnoreEngine` — last-match-wins path matching
  (with a model of `fnmatch.fnmatch` on POSIX);
* `worker/file_processing.FileProcessor.process_file_content` — the per-file
  content pipeline (exclusion modes, oversize handling, chunking, error
  degradation);
* `worker/dump_worker.DumpWorker.is_custom_excluded` and the volume-planning
  phase of `DumpWorker.run`.

Python paths are modelled as resolved absolute paths given by their list of
segments; Python `int` is modelled by `Int`/`Nat` (Python ints are unbounded,
so no wrap-around modelling is needed); operations that can raise are
modelled in `Except`.

The file is laid out as: all definitions (the embedding), then supporting
lemmas, then one theorem per specification claim.
-/

namespace SmartDumper

/-! ## Python `str.splitlines(keepends=True)`

`str.splitlines` splits on the Python universal line boundaries:
LF, CR (with CRLF counted as a single boundary), VT, FF, FS, GS, RS,
NEL (U+0085), LINE SEPARATOR (U+2028) and PARAGRAPH SEPARATOR (U+2029).
With `keepends=True` each line retains its terminator, so the
concatenation of the lines is the original string. -/

/-- The characters Python `str.splitlines` treats as line boundaries. -/
def isLineBreak (c : Char) : Bool :=
  c = '\n' || c = '\r' || c.val = 0x0b || c.val = 0x0c ||
  c.val = 0x1c || c.val = 0x1d || c.val = 0x1e ||
  c.val = 0x85 || c.val = 0x2028 || c.val = 0x2029

/-- `str.splitlines(keepends=True)` over a character list: a CRLF pair is a
single boundary, any other line-break character ends its line, and a
non-break character is prepended to the following line. -/
def splitlinesKeepends : List Char → List (List Char)
  | [] => []
  | [c] => [[c]]
  | c1 :: c2 :: cs =>
    if c1 = '\r' && c2 = '\n' then
      [c1, c2] :: splitlinesKeepends cs
    else if isLineBreak c1 then
      [c1] :: splitlinesKeepends (c2 :: cs)
    else
      match splitlinesKeepends (c2 :: cs) with
      | [] => [[c1]]
      | l :: ls => (c1 :: l) :: ls

/-- String-level `splitlines(keepends=True)`. -/
def splitlinesKeependsStr (s : String) : List String :=
  (splitlinesKeepends s.data).map (fun l => String.mk l)

/-- `len(s.splitlines())`: the number of lines of a Python string
(the count is the same with and without `keepends`). -/
def pyLineCount (s : String) : Nat :=
  (splitlinesKeependsStr s).length

/-- Python `"".join(parts)`. -/
def pyJoin (ss : List String) : String :=
  String.mk (ss.map String.data).flatten

/-! ## `xml_utils.chunk_lines_keepends`

```python
def chunk_lines_keepends(text: str, max_lines: int) -> List[Dict[str, Any]]:
    if not text:
        return [{"start_line": 1, "end_line": 0, "text": ""}]
    lines = text.splitlines(True)  # keep line endings
    out = []; start = 1; i = 0
    while i < len(lines):
        part = lines[i : i + max_lines]
        end = start + len(part) - 1
        out.append({"start_line": start, "end_line": end, "text": "".join(part)})
        i += max_lines
        start = end + 1
    return out
```
-/

/-- One element of the list returned by `chunk_lines_keepends`
(also the §3 `Chunk` record without its derived `id`). -/
structure Chunk where
  start_line : Nat
  end_line : Nat
  text : String
  deriving Repr, DecidableEq

/-- The `while` loop of `chunk_lines_keepends`, recursing on the suffix
`lines[i:]` of the line list. With `max_lines = 0` the Python loop never
terminates; we return `[]` there and state every theorem for
`max_lines ≥ 1`. -/
def chunkLoop (maxLines : Nat) (lines : List String) (start : Nat) : List Chunk :=
  match lines with
  | [] => []
  | l :: rest =>
    if maxLines = 0 then []
    else
      { start_line := start,
        end_line := start + ((l :: rest).take maxLines).length - 1,
        text := pyJoin ((l :: rest).take maxLines) } ::
        chunkLoop maxLines ((l :: rest).drop maxLines)
          (start + ((l :: rest).take maxLines).length - 1 + 1)
  termination_by lines.length
  decreasing_by
    simp only [List.length_drop, List.length_cons]
    omega

/-- `chunk_lines_keepends(text, max_lines)`. -/
def chunkLinesKeepends (text : String) (maxLines : Nat) : List Chunk :=
  if text = "" then [⟨1, 0, ""⟩]
  else chunkLoop maxLines (splitlinesKeependsStr text) 1

/-- The `(start_line, end_line)` ranges the loop produces depend only on the
number of lines; this recursion mirrors the loop's index arithmetic. -/
def chunkRanges (maxLines : Nat) (n : Nat) (start : Nat) : List (Nat × Nat) :=
  if n = 0 then []
  else if maxLines = 0 then []
  else
    (start, start + min maxLines n - 1) ::
      chunkRanges maxLines (n - maxLines) (start + min maxLines n)
  termination_by n
  decreasing_by omega

/-- `isConsecutiveFrom s rs`: the ranges in `rs` are consecutive, the first
starting at `s` and each next one starting right after the previous end. -/
def isConsecutiveFrom : Nat → List (Nat × Nat) → Prop
  | _, [] => True
  | s, (a, b) :: rest => a = s ∧ isConsecutiveFrom (b + 1) rest

/-! ## Paths

Python `pathlib.Path` values reaching the matching code are already
`.resolve()`d, so a path is modelled by its list of segments relative to the
filesystem root (an absolute POSIX path). -/

/-- A resolved absolute path, as its list of segments. -/
structure PyPath where
  segs : List String
  deriving Repr, DecidableEq

/-- `str(path)` / `path.as_posix()` for a resolved absolute path. -/
def pathStr (p : PyPath) : String :=
  "/" ++ String.intercalate "/" p.segs

/-- `path.name` (empty for the filesystem root). -/
def pyName (p : PyPath) : String :=
  p.segs.getLast?.getD ""

/-- `path.relative_to(base).as_posix()`: `some` when `base` is an ancestor of
(or equal to) `path` — segment-wise prefix, as in `pathlib` — else `none`
(`relative_to` raises `ValueError`). `relative_to` of a path to itself is
`Path('.')`, whose `as_posix()` is `"."`. -/
def relativeTo (p base : PyPath) : Option String :=
  if base.segs.isPrefixOf p.segs then
    some (if p.segs.length = base.segs.length then "."
          else String.intercalate "/" (p.segs.drop base.segs.length))
  else none

/-! ## `fnmatch.fnmatch` (POSIX)

`fnmatch` translates the shell pattern to a regex: `*` matches any
character sequence (including `/`), `?` any single character, `[seq]` a
character class (`[!seq]` negated, an unterminated `[` is a literal), and
every other character matches itself, anchored at both ends. On POSIX
`os.path.normcase` is the identity, so matching is case-sensitive. -/

/-- Split a class body at its closing `]`; `none` when unterminated. -/
def splitOnRBracket : List Char → Option (List Char × List Char)
  | [] => none
  | c :: t =>
    if c = ']' then some ([], t)
    else
      match splitOnRBracket t with
      | none => none
      | some (b, r) => some (c :: b, r)

/-- A `]` right after the (possibly negated) class opening is a literal
member, not the closing bracket. -/
def scanClassBody (t : List Char) : Option (List Char × List Char) :=
  match t with
  | [] => none
  | c :: t2 =>
    if c = ']' then (splitOnRBracket t2).map (fun br => (']' :: br.1, br.2))
    else splitOnRBracket (c :: t2)

/-- Scan a `[...]` class right after the opening bracket: an initial `!`
negates the class. -/
def scanClass (cs : List Char) : Option (Bool × List Char × List Char) :=
  match cs with
  | [] => none
  | c :: t =>
    if c = '!' then (scanClassBody t).map (fun br => (true, br.1, br.2))
    else (scanClassBody (c :: t)).map (fun br => (false, br.1, br.2))

/-- Membership of a character in a class body, with `a-b` ranges; a `-` in
first or last position is a literal. -/
def inClass : List Char → Char → Bool
  | [], _ => false
  | a :: '-' :: b :: rest, c =>
    (a.val ≤ c.val && c.val ≤ b.val) || inClass rest c
  | a :: rest, c => a = c || inClass rest c

/-- The anchored shell-pattern matcher at the heart of `fnmatch.fnmatch`.
Every recursive call strictly decreases `pat.length + s.length` (for the
class case because the scanned remainder is shorter than the class text),
so running it on structural fuel `pat.length + s.length + 1` — which keeps
concrete matches kernel-computable — never hits the out-of-fuel arm. -/
def globMatchFuel : Nat → List Char → List Char → Bool
  | 0, _, _ => false
  | fuel + 1, pat, s =>
    match pat, s with
    | [], s => s.isEmpty
    | '*' :: ps, s =>
      globMatchFuel fuel ps s ||
        (match s with
         | [] => false
         | _ :: cs => globMatchFuel fuel ('*' :: ps) cs)
    | '?' :: ps, s =>
      (match s with
       | [] => false
       | _ :: cs => globMatchFuel fuel ps cs)
    | '[' :: ps, s =>
      (match scanClass ps with
       | some (neg, cls, rest) =>
         (match s with
          | [] => false
          | c :: cs => (inClass cls c != neg) && globMatchFuel fuel rest cs)
       | none =>
         (match s with
          | '[' :: cs => globMatchFuel fuel ps cs
          | _ => false))
    | p :: ps, s =>
      (match s with
       | c :: cs => p = c && globMatchFuel fuel ps cs
       | [] => false)

def globMatch (pat s : List Char) : Bool :=
  globMatchFuel (pat.length + s.length + 1) pat s

/-- `fnmatch.fnmatch(name, pat)` on POSIX. -/
def fnmatch (name pat : String) : Bool :=
  globMatch pat.data name.data

/-! ## `gitignore_engine.GitIgnoreEngine`

```python
def _rule_applies(self, rule_base, path):
    return str(path).startswith(str(rule_base))

def _match_rule(self, rule, path, is_dir):
    base = rule["base"]
    try:
        rel_from_base = path.relative_to(base).as_posix()
    except Exception:
        return False
    name = path.name
    pat = rule["pattern"]
    if rule["dir_only"]:
        if not is_dir:
            return False
        if rule["anchored"] or ("/" in pat):
            if fnmatch.fnmatch(rel_from_base, pat):
                return True
            return rel_from_base == pat or rel_from_base.startswith(pat + "/")
        return fnmatch.fnmatch(name, pat)
    if rule["anchored"] or ("/" in pat):
        return fnmatch.fnmatch(rel_from_base, pat)
    return fnmatch.fnmatch(name, pat)

def match_ignore(self, path, is_dir):
    ignored = False
    for rule in self.rules:
        if not self._rule_applies(rule["base"], path):
            continue
        if self._match_rule(rule, path, is_dir=is_dir):
            ignored = not rule["neg"]
    return ignored
```
-/

/-- One parsed ignore rule (`{pattern, neg, dir_only, anchored, base}`);
`base` is the directory containing the `.gitignore`/`.smartignore` file
that defined the rule. -/
structure IgnoreRule where
  pattern : String
  neg : Bool
  dir_only : Bool
  anchored : Bool
  base : PyPath
  deriving Repr, DecidableEq

/-- Python `s.startswith(pre)`: character-level prefix test. -/
def pyStartsWith (s pre : String) : Bool :=
  pre.data.isPrefixOf s.data

/-- `GitIgnoreEngine._rule_applies`: a raw string-prefix test on the
rendered paths. -/
def ruleApplies (ruleBase : PyPath) (path : PyPath) : Bool :=
  pyStartsWith (pathStr path) (pathStr ruleBase)

/-- `GitIgnoreEngine._match_rule`. -/
def matchRule (rule : IgnoreRule) (path : PyPath) (isDir : Bool) : Bool :=
  match relativeTo path rule.base with
  | none => false
  | some relFromBase =>
    if rule.dir_only then
      if !isDir then false
      else if rule.anchored || rule.pattern.data.contains '/' then
        if fnmatch relFromBase rule.pattern then true
        else relFromBase = rule.pattern
          || pyStartsWith relFromBase (rule.pattern ++ "/")
      else fnmatch (pyName path) rule.pattern
    else if rule.anchored || rule.pattern.data.contains '/' then
      fnmatch relFromBase rule.pattern
    else fnmatch (pyName path) rule.pattern

/-- `GitIgnoreEngine.match_ignore`: a fold over the loaded rules in
file-discovery order, starting not-ignored; each rule that applies and
matches overwrites the verdict with the opposite of its negation flag. -/
def matchIgnore (rules : List IgnoreRule) (path : PyPath) (isDir : Bool) : Bool :=
  rules.foldl
    (fun ignored rule =>
      if ruleApplies rule.base path then
        if matchRule rule path isDir then !rule.neg else ignored
      else ignored)
    false

/-- A rule both applies (string-prefix scope test) and matches a path. -/
def ruleHits (rule : IgnoreRule) (path : PyPath) (isDir : Bool) : Bool :=
  ruleApplies rule.base path && matchRule rule path isDir

/-! ## Small Python string helpers -/

/-- Python `str.isspace` for the ASCII whitespace characters (the ones that
occur in the exclusion-mode strings). -/
def isPySpace (c : Char) : Bool :=
  c = ' ' || c = '\t' || c = '\n' || c = '\r' || c.val = 0x0b || c.val = 0x0c

/-- Python `str.strip()`. -/
def pyStrip (s : String) : String :=
  String.mk (((s.data.dropWhile isPySpace).reverse.dropWhile isPySpace).reverse)

/-- Python `sub in s` (substring containment). -/
def pyContainsSub (s sub : String) : Bool :=
  (List.range (s.data.length + 1)).any
    (fun i => sub.data.isPrefixOf (s.data.drop i))

/-- Python `str.lower()` (ASCII; file extensions are ASCII). -/
def pyLower (s : String) : String :=
  String.mk (s.data.map Char.toLower)

/-- CPython `PurePath.suffix`: `name[i:]` for the last `i` with
`name[i] = '.'`, provided `0 < i < len(name) - 1`; else the empty string. -/
def pySuffix (name : String) : String :=
  match ((List.range name.data.length).filter
      (fun i => (name.data.drop i).head? = some '.')).getLast? with
  | some i =>
    if 0 < i ∧ i < name.data.length - 1 then String.mk (name.data.drop i) else ""
  | none => ""

/-! ## `worker/file_processing.FileProcessor`

The dataclass holds the configuration and the injected callables
(`is_custom_excluded`, `exclusion_mode_getter`, `get_file_size`,
`check_stop`); `stop_event.is_set()` is modelled by a poll plan: the flag
becomes (and stays) set from poll number `stop_plan` on.  `short_sha1` is a
pure stdlib hash whose value no property depends on; it is carried as an
abstract function field.  Operations that can raise run in `Except PyErr`. -/

/-- A raised Python exception: the distinguished `InterruptedError`
(cooperative cancellation) or any other exception with its class name and
message. -/
inductive PyErr where
  | interrupted
  | exn (name : String) (msg : String)
  deriving Repr, DecidableEq

/-- One file handed to `process_file_content`: its resolved path and the
outcome `f.read_text(encoding="utf-8", errors="replace")` would have
(`errors="replace"` never raises on bad bytes, but the OS read itself can
fail). -/
structure PyFile where
  path : PyPath
  readResult : Except PyErr String

/-- The `FileProcessor` dataclass. -/
structure FileProcessor where
  root_dir : PyPath
  chunk_max_lines : Nat
  oversize_bytes : Nat
  stop_plan : Option Nat
  is_custom_excluded : PyPath → Bool
  exclusion_mode : String
  get_file_size : PyPath → Nat
  sha : String → String

/-- `stop_event.is_set()` at the `poll`-th poll of this call. -/
def stopSet (fp : FileProcessor) (poll : Nat) : Bool :=
  match fp.stop_plan with
  | some j => j ≤ poll
  | none => false

/-- `self._check_stop()`: raises `InterruptedError` when the stop event is
set, else consumes one poll. -/
def fpCheckStop (fp : FileProcessor) (poll : Nat) : Except PyErr Nat :=
  if stopSet fp poll then .error .interrupted else .ok (poll + 1)

/-- One chunk dict as built in `process_file_content`
(`{"id", "start_line", "end_line", "text"}`). -/
structure ChunkRec where
  id : String
  start_line : Nat
  end_line : Nat
  text : String
  deriving Repr, DecidableEq

/-- The result dict of `process_file_content`. -/
structure FileRecord where
  rel_path : String
  ext : String
  size_bytes : Nat
  line_count : Nat
  kind : String
  file_id : String
  chunks : Option (List ChunkRec)
  content : String
  deriving Repr, DecidableEq

/-- The `for c in raw_chunks` loop: a `check_stop` per chunk, then the
chunk dict with its derived id. -/
def buildChunks (fp : FileProcessor) (fileId : String) :
    List Chunk → Nat → Except PyErr (List ChunkRec × Nat)
  | [], poll => .ok ([], poll)
  | c :: rest, poll => do
    let poll ← fpCheckStop fp poll
    let built ← buildChunks fp fileId rest poll
    .ok (⟨fileId ++ ":" ++ toString c.start_line ++ "-" ++ toString c.end_line,
          c.start_line, c.end_line, c.text⟩ :: built.1, built.2)

/-- The `try:` body of `process_file_content` (everything between the
leading `_stop_now` test and the `except` clauses). -/
def processBody (fp : FileProcessor) (f : PyFile) : Except PyErr FileRecord := do
  let poll ← fpCheckStop fp 1
  let rel_path :=
    match relativeTo f.path fp.root_dir with
    | some r => r
    | none => pathStr f.path
  let ext := pyLower (pySuffix (pyName f.path))
  let is_excluded_path := fp.is_custom_excluded f.path
  let exclusion_mode := pyStrip fp.exclusion_mode
  let (size_bytes, line_count, content, kind, poll) ←
    (if is_excluded_path then
      if pyContainsSub exclusion_mode "Names" then
        .ok (0, 0, "", "list_name_only", poll)
      else
        .ok (fp.get_file_size f.path, 0, "", "metadata_only", poll)
    else
      let size := fp.get_file_size f.path
      if fp.oversize_bytes < size then
        .ok (size, 0, "SKIPPED_OVERSIZED: " ++ toString size ++ " bytes",
             "oversized", poll)
      else do
        let poll ← fpCheckStop fp poll
        let content ← f.readResult
        let poll ← fpCheckStop fp poll
        .ok (size, pyLineCount content, content,
             if ext = ".md" then "markdown" else "source", poll) :
      Except PyErr (Nat × Nat × String × String × Nat))
  let file_id :=
    if (kind = "source" ∨ kind = "markdown") ∧ content ≠ "" ∧
        size_bytes ≤ fp.oversize_bytes then
      fp.sha (rel_path ++ "\n" ++ content)
    else
      fp.sha (rel_path ++ "\n" ++ toString size_bytes ++ "\n" ++ kind)
  if (kind = "source" ∨ kind = "markdown") ∧ content ≠ "" ∧
      fp.chunk_max_lines < line_count then do
    let poll ← fpCheckStop fp poll
    let built ← buildChunks fp file_id
      (chunkLinesKeepends content fp.chunk_max_lines) poll
    .ok ⟨rel_path, ext, size_bytes, line_count, kind, file_id,
         some built.1, ""⟩
  else
    .ok ⟨rel_path, ext, size_bytes, line_count, kind, file_id, none, content⟩

/-- `FileProcessor.process_file_content`: `None` when the stop event is
already set on entry or an `InterruptedError` is raised inside; an
`error`-kind record for any other exception; otherwise the result dict. -/
def processFileContent (fp : FileProcessor) (f : PyFile) : Option FileRecord :=
  if stopSet fp 0 then none
  else
    match processBody fp f with
    | .ok r => some r
    | .error .interrupted => none
    | .error (.exn en em) =>
      some ⟨pyName f.path, "", 0, 0, "error", fp.sha (pyName f.path), none,
            en ++ ": " ++ em⟩

/-! ## `DumpWorker.is_custom_excluded`

```python
def is_custom_excluded(self, path):
    if not self.custom_excludes:
        return False
    p = Path(path).resolve()
    for exc in self.custom_excludes:
        if p == exc or exc in p.parents:
            return True
    return False
```
(`self.custom_excludes` was `.resolve()`d in `__init__`; resolution is the
identity on our already-resolved paths.) -/

/-- `path.parents`: every proper ancestor, nearest first, down to `/`. -/
def pyParents (p : PyPath) : List PyPath :=
  (List.range p.segs.length).map (fun i => ⟨p.segs.take (p.segs.length - 1 - i)⟩)

/-- `DumpWorker.is_custom_excluded`. -/
def isCustomExcluded (customExcludes : List PyPath) (p : PyPath) : Bool :=
  if customExcludes = [] then false
  else customExcludes.any (fun exc => p = exc || (pyParents p).contains exc)

/-! ## The volume-planning phase of `DumpWorker.run`

The slot computation and the `planned_dumps` construction
(`dump_worker.py`, the block between the `analyzed_folders` sort and
"Phase 2").  `analyzed_folders` is sorted by aggregate size, descending,
with Python's stable `list.sort`; filenames go through
`self._normalize_volume_filename`, which depends only on the output-format
configuration and is carried as an abstract function field. -/

/-- One entry of `analyzed_folders`. -/
structure AnalyzedFolder where
  name : String
  files : List PyPath
  size : Nat
  deriving Repr, DecidableEq

/-- One entry of `planned_dumps`. -/
structure PlannedDump where
  filename : String
  files : List PyPath
  title : String
  short_title : String
  deriving Repr, DecidableEq

/-- The configuration the planning phase reads. `max_output_files` is
clamped with `max(2, ...)` in `__init__`. -/
structure PlanConfig where
  max_output_files_raw : Int
  create_index : Bool
  base_name_pattern : String
  normalize : String → String

/-- `self.max_output_files = max(2, int(max_output_files))`. -/
def maxOutputFiles (cfg : PlanConfig) : Int :=
  max 2 cfg.max_output_files_raw

/-- `available_slots` after reserving the instructions file, the optional
index, and clamping to at least 1 (the "forcing at least 1 volume" note). -/
def slotBudget (cfg : PlanConfig) : Int :=
  let s := maxOutputFiles cfg - 1 - (if cfg.create_index then 1 else 0)
  if s < 1 then 1 else s

/-- Stable insertion into a size-descending list: an element is placed
before the first strictly smaller one, so earlier elements win ties —
Python's stable `sort(key=size, reverse=True)`. -/
def insertBySizeDesc (f : AnalyzedFolder) :
    List AnalyzedFolder → List AnalyzedFolder
  | [] => [f]
  | g :: t => if g.size ≤ f.size then f :: g :: t else g :: insertBySizeDesc f t

/-- `analyzed_folders.sort(key=lambda x: int(x.get("size", 0)), reverse=True)`. -/
def sortBySizeDesc (l : List AnalyzedFolder) : List AnalyzedFolder :=
  l.foldr insertBySizeDesc []

/-- `f"{idx:02d}"` for the volume numbering. -/
def pad2 (n : Nat) : String :=
  if n < 10 then "0" ++ toString n else toString n

/-- One per-folder `planned_dumps` entry. -/
def mkFolderPlan (cfg : PlanConfig) (idx : Nat) (folder : AnalyzedFolder) :
    PlannedDump :=
  ⟨cfg.normalize (cfg.base_name_pattern ++ "_" ++ pad2 idx ++ "_" ++
      folder.name ++ ".xml"),
   folder.files, "FOLDER: " ++ folder.name, folder.name⟩

/-- The construction of `planned_dumps` in `DumpWorker.run`. -/
def planDumps (cfg : PlanConfig) (rootFiles : List PyPath)
    (analyzedFolders : List AnalyzedFolder) : List PlannedDump :=
  let sorted := sortBySizeDesc analyzedFolders
  let slots0 := slotBudget cfg
  let rootPlans : List PlannedDump :=
    if rootFiles ≠ [] ∧ 0 < slots0 then
      [⟨cfg.normalize (cfg.base_name_pattern ++ "_01_ROOT.xml"), rootFiles,
        "ROOT FILES", "Root"⟩]
    else []
  let slots := if rootFiles ≠ [] ∧ 0 < slots0 then slots0 - 1 else slots0
  let startIdx := rootPlans.length + 1
  if (sorted.length : Int) ≤ slots then
    rootPlans ++ sorted.mapIdx (fun i folder => mkFolderPlan cfg (startIdx + i) folder)
  else
    let distinctCount : Nat := (max 0 (slots - 1)).toNat
    let othersFiles := (sorted.drop distinctCount).flatMap (fun f => f.files)
    rootPlans ++
      (sorted.take distinctCount).mapIdx
        (fun i folder => mkFolderPlan cfg (startIdx + i) folder) ++
      (if othersFiles ≠ [] then
        [⟨cfg.normalize (cfg.base_name_pattern ++ "_99_OTHERS.xml"), othersFiles,
          "OTHERS (Misc Folders)", "Others"⟩]
       else [])

/-- Output files of one run, as counted by the claim: the planned volumes,
the instructions file, and the optional index. -/
def totalOutputCount (cfg : PlanConfig) (rootFiles : List PyPath)
    (analyzedFolders : List AnalyzedFolder) : Int :=
  (planDumps cfg rootFiles analyzedFolders).length + 1 +
    (if cfg.create_index then 1 else 0)

/-! # Supporting lemmas -/

/-- Concatenating the `keepends` lines gives back the original text
(this is what makes `keepends=True` lossless). -/
theorem splitlinesKeepends_flatten : ∀ cs : List Char,
    (splitlinesKeepends cs).flatten = cs := by
  intro cs
  induction cs using splitlinesKeepends.induct with
  | case1 => simp [splitlinesKeepends]
  | case2 c => simp [splitlinesKeepends]
  | case3 c1 c2 cs hcrlf ih =>
    simp only [splitlinesKeepends, if_pos hcrlf]
    simp [ih]
  | case4 c1 c2 cs hcrlf hbr ih =>
    simp only [splitlinesKeepends, if_neg hcrlf, if_pos hbr]
    simp [ih]
  | case5 c1 c2 cs hcrlf hbr hsp ih =>
    rw [hsp] at ih
    simp at ih
  | case6 c1 c2 cs hcrlf hbr l ls hsp ih =>
    simp only [splitlinesKeepends, if_neg hcrlf, if_neg hbr, hsp]
    rw [hsp] at ih
    simpa using ih

theorem pyJoin_data (ss : List String) :
    (pyJoin ss).data = (ss.map String.data).flatten := rfl

theorem pyJoin_splitlinesKeependsStr (s : String) :
    pyJoin (splitlinesKeependsStr s) = s := by
  unfold pyJoin splitlinesKeependsStr
  rw [List.map_map]
  have : (String.data ∘ fun l => String.mk l) = id := rfl
  rw [this, List.map_id, splitlinesKeepends_flatten]

theorem pyJoin_cons (s : String) (ss : List String) :
    pyJoin (s :: ss) = s ++ pyJoin ss := by
  apply String.ext
  simp [pyJoin, String.data_append]

theorem pyJoin_append (a b : List String) :
    pyJoin (a ++ b) = pyJoin a ++ pyJoin b := by
  apply String.ext
  simp [pyJoin, String.data_append]

/-- The chunk texts produced by the loop concatenate to the concatenation of
the lines the loop was given. -/
theorem chunkLoop_texts_join (maxLines : Nat) (hm : maxLines ≠ 0)
    (lines : List String) (start : Nat) :
    pyJoin ((chunkLoop maxLines lines start).map Chunk.text) = pyJoin lines := by
  induction lines, start using chunkLoop.induct maxLines with
  | case1 start => simp [chunkLoop]
  | case2 start l rest h0 => exact absurd h0 hm
  | case3 start l rest h0 ih =>
    rw [chunkLoop]
    simp only [if_neg h0, List.map_cons]
    rw [pyJoin_cons, ih]
    rw [← pyJoin_append, List.take_append_drop]

theorem getLast?_cons_of_ne_nil (a : α) {l : List α} (h : l ≠ []) :
    (a :: l).getLast? = l.getLast? := by
  cases l with
  | nil => exact absurd rfl h
  | cons b t => rw [List.getLast?_cons_cons]

/-- The number of lines in a nonempty text is nonzero. -/
theorem splitlinesKeepends_ne_nil (cs : List Char) (h : cs ≠ []) :
    splitlinesKeepends cs ≠ [] := by
  match cs with
  | [] => exact absurd rfl h
  | [c] => simp [splitlinesKeepends]
  | c1 :: c2 :: cs =>
    rw [splitlinesKeepends]
    split
    · simp
    · split
      · simp
      · split <;> simp

/-- The loop's chunk ranges are `chunkRanges` of the line count. -/
theorem chunkLoop_ranges (maxLines : Nat) (hm : maxLines ≠ 0)
    (lines : List String) (start : Nat) :
    (chunkLoop maxLines lines start).map (fun c => (c.start_line, c.end_line)) =
      chunkRanges maxLines lines.length start := by
  induction lines, start using chunkLoop.induct maxLines with
  | case1 start => rw [chunkLoop, chunkRanges]; simp
  | case2 start l rest h0 => exact absurd h0 hm
  | case3 start l rest h0 ih =>
    rw [chunkLoop, chunkRanges]
    have hlen : ((l :: rest).take maxLines).length = min maxLines (rest.length + 1) := by
      simp [List.length_take]
    have hmin : 1 ≤ min maxLines (rest.length + 1) := by omega
    simp only [if_neg h0, List.map_cons, List.length_cons]
    rw [if_neg (Nat.succ_ne_zero rest.length)]
    refine List.cons_eq_cons.mpr ⟨?_, ?_⟩
    · simp [hlen]
    · rw [ih]
      simp only [List.length_drop, List.length_cons, hlen]
      congr 1
      omega

theorem chunkRanges_consecutive (maxLines : Nat) :
    ∀ (n start : Nat), isConsecutiveFrom start (chunkRanges maxLines n start) := by
  intro n start
  induction n, start using chunkRanges.induct maxLines with
  | case1 start => rw [chunkRanges]; simp [isConsecutiveFrom]
  | case2 n start hn h0 =>
    rw [chunkRanges, if_neg hn, if_pos h0]; trivial
  | case3 n start hn h0 ih =>
    rw [chunkRanges, if_neg hn, if_neg h0]
    refine ⟨rfl, ?_⟩
    have hmin : 1 ≤ min maxLines n := by omega
    have : start + min maxLines n - 1 + 1 = start + min maxLines n := by omega
    rw [this]
    exact ih

/-- Every range spans at least one and at most `maxLines` lines. -/
theorem chunkRanges_spans (maxLines : Nat) :
    ∀ (n start : Nat), ∀ p ∈ chunkRanges maxLines n start,
      p.1 ≤ p.2 ∧ p.2 + 1 - p.1 ≤ maxLines := by
  intro n start
  induction n, start using chunkRanges.induct maxLines with
  | case1 start => rw [chunkRanges]; simp
  | case2 n start hn h0 =>
    rw [chunkRanges, if_neg hn, if_pos h0]; simp
  | case3 n start hn h0 ih =>
    rw [chunkRanges, if_neg hn, if_neg h0]
    intro p hp
    rcases List.mem_cons.mp hp with h | h
    · subst h
      constructor <;> simp <;> omega
    · exact ih p h

theorem chunkRanges_ne_nil (maxLines n start : Nat) (hm : maxLines ≠ 0)
    (hn : n ≠ 0) : chunkRanges maxLines n start ≠ [] := by
  rw [chunkRanges, if_neg hn, if_neg hm]
  simp

/-- The last range ends exactly at line `start + n - 1`, so the ranges cover
lines `start .. start + n - 1`. -/
theorem chunkRanges_last_end (maxLines : Nat) (hm : maxLines ≠ 0) :
    ∀ (n start : Nat), n ≠ 0 →
      ((chunkRanges maxLines n start).getLast?).map Prod.snd =
        some (start + n - 1) := by
  intro n start
  induction n, start using chunkRanges.induct maxLines with
  | case1 start => intro hn; exact absurd rfl hn
  | case2 n start hn h0 => exact absurd h0 hm
  | case3 n start hn h0 ih =>
    intro _
    rw [chunkRanges, if_neg hn, if_neg h0]
    by_cases hrest : n - maxLines = 0
    · have hnil : chunkRanges maxLines (n - maxLines) (start + min maxLines n) = [] := by
        rw [chunkRanges, if_pos hrest]
      rw [hnil]
      simp only [List.getLast?_singleton, Option.map_some']
      congr 1
      omega
    · have hne := chunkRanges_ne_nil maxLines (n - maxLines)
        (start + min maxLines n) hm hrest
      rw [getLast?_cons_of_ne_nil _ hne, ih hrest]
      congr 1
      omega

theorem slotBudget_ge_one (cfg : PlanConfig) : (1 : Int) ≤ slotBudget cfg := by
  simp only [slotBudget]
  split <;> omega

theorem insertBySizeDesc_length (f : AnalyzedFolder) (l : List AnalyzedFolder) :
    (insertBySizeDesc f l).length = l.length + 1 := by
  induction l with
  | nil => rfl
  | cons g t ih =>
    rw [insertBySizeDesc]
    split
    · simp
    · simp only [List.length_cons, ih]

theorem sortBySizeDesc_length (l : List AnalyzedFolder) :
    (sortBySizeDesc l).length = l.length := by
  induction l with
  | nil => rfl
  | cons f t ih =>
    show (insertBySizeDesc f (sortBySizeDesc t)).length = _
    rw [insertBySizeDesc_length, ih, List.length_cons]

theorem planDumps_length_le (cfg : PlanConfig) (rootFiles : List PyPath)
    (folders : List AnalyzedFolder) :
    ((planDumps cfg rootFiles folders).length : Int) ≤ max (slotBudget cfg) 2 := by
  have hS1 := slotBudget_ge_one cfg
  unfold planDumps
  by_cases hroot : rootFiles ≠ [] ∧ 0 < slotBudget cfg
  · simp only [if_pos hroot]
    split
    · rename_i hfit
      simp only [List.length_append, List.length_cons, List.length_nil, List.length_mapIdx]
      rw [sortBySizeDesc_length] at hfit ⊢
      omega
    · rename_i hfit
      simp only [List.length_append, List.length_cons, List.length_nil, List.length_mapIdx,
        List.length_take]
      rw [sortBySizeDesc_length] at hfit ⊢
      split <;> (simp only [List.length_cons, List.length_nil]; omega)
  · simp only [if_neg hroot]
    split
    · rename_i hfit
      simp only [List.length_append, List.length_nil, List.length_mapIdx]
      rw [sortBySizeDesc_length] at hfit ⊢
      omega
    · rename_i hfit
      simp only [List.length_append, List.length_nil, List.length_mapIdx, List.length_take]
      rw [sortBySizeDesc_length] at hfit ⊢
      split <;> (simp only [List.length_cons, List.length_nil]; omega)

theorem matchIgnore_append_single (rules : List IgnoreRule) (r : IgnoreRule)
    (p : PyPath) (d : Bool) :
    matchIgnore (rules ++ [r]) p d =
      if ruleHits r p d then !r.neg else matchIgnore rules p d := by
  unfold matchIgnore ruleHits
  rw [List.foldl_append]
  simp only [List.foldl_cons, List.foldl_nil]
  by_cases ha : ruleApplies r.base p
  · by_cases hmm : matchRule r p d
    · simp [ha, hmm]
    · simp [ha, hmm]
  · simp [ha]

theorem matchIgnore_eq_lastHit (rules : List IgnoreRule) (p : PyPath) (d : Bool) :
    matchIgnore rules p d =
      ((rules.filter (fun r => ruleHits r p d)).getLast?).elim false (fun r => !r.neg) := by
  induction rules using List.reverseRecOn with
  | nil => rfl
  | append_singleton rules r ih =>
    rw [matchIgnore_append_single, List.filter_append]
    by_cases h : ruleHits r p d
    · simp [h, List.getLast?_concat]
    · simp only [h, Bool.false_eq_true, if_false]
      simp only [List.filter_cons, h, List.filter_nil]
      simp [ih]

theorem matchRule_of_not_subtree (rule : IgnoreRule) (p : PyPath) (d : Bool)
    (h : rule.base.segs.isPrefixOf p.segs = false) : matchRule rule p d = false := by
  unfold matchRule relativeTo
  simp [h]

theorem matchIgnore_outside_rule_irrelevant (l1 l2 : List IgnoreRule)
    (r : IgnoreRule) (p : PyPath) (d : Bool)
    (h : r.base.segs.isPrefixOf p.segs = false) :
    matchIgnore (l1 ++ r :: l2) p d = matchIgnore (l1 ++ l2) p d := by
  unfold matchIgnore
  rw [List.foldl_append, List.foldl_append, List.foldl_cons]
  have hmr := matchRule_of_not_subtree r p d h
  congr 1
  simp [hmr]

theorem stopSet_mono {fp : FileProcessor} {i j : Nat} (hij : i ≤ j)
    (h : stopSet fp j = false) : stopSet fp i = false := by
  cases hsp : fp.stop_plan with
  | none => simp [stopSet, hsp]
  | some k =>
    simp only [stopSet, hsp, decide_eq_false_iff_not] at h ⊢
    omega

theorem buildChunks_ok_texts (fp : FileProcessor) (fid : String) :
    ∀ (cs : List Chunk) (poll : Nat) (l : List ChunkRec) (poll2 : Nat),
      buildChunks fp fid cs poll = .ok (l, poll2) →
      l.map ChunkRec.text = cs.map Chunk.text := by
  intro cs
  induction cs with
  | nil =>
    intro poll l poll2 h
    simp only [buildChunks] at h
    cases h
    rfl
  | cons c rest ih =>
    intro poll l poll2 h
    simp only [buildChunks, fpCheckStop, bind, Except.bind] at h
    split at h
    · exact Except.noConfusion h
    · split at h
      · exact Except.noConfusion h
      · rename_i built heq
        cases h
        simp only [List.map_cons]
        rw [ih _ _ _ heq]

theorem chunkLinesKeepends_ne_nil (text : String) (maxLines : Nat)
    (hm : maxLines ≠ 0) : chunkLinesKeepends text maxLines ≠ [] := by
  unfold chunkLinesKeepends
  split
  · simp
  · rename_i hne
    have hd : text.data ≠ [] := by
      intro hh
      apply hne
      cases text
      simp at hh
      simp [hh]
    have hsl := splitlinesKeepends_ne_nil text.data hd
    unfold splitlinesKeependsStr
    cases hsp : splitlinesKeepends text.data with
    | nil => exact absurd hsp hsl
    | cons a t =>
      simp only [List.map_cons]
      rw [chunkLoop]
      simp [hm]

theorem processBody_ok_invariant (fp : FileProcessor) (f : PyFile) (r : FileRecord)
    (hmax : 1 ≤ fp.chunk_max_lines) (h : processBody fp f = .ok r) :
    (∀ l, r.chunks = some l → l ≠ [] ∧ r.content = "" ∧
       (r.kind = "source" ∨ r.kind = "markdown")) ∧
    ((r.kind = "metadata_only" ∨ r.kind = "list_name_only") →
       r.chunks = none ∧ r.content = "") := by
  unfold processBody at h
  simp only [fpCheckStop, bind, Except.bind] at h
  split at h
  · exact Except.noConfusion h
  split at h
  · exact Except.noConfusion h
  rename_i v heq
  obtain ⟨size_bytes, line_count, content, kind, poll⟩ := v
  split at heq
  · -- custom-excluded path
    split at heq
    · cases heq
      rw [if_neg (by simp)] at h
      cases h
      exact ⟨fun l hl => absurd hl (by simp), fun hk => ⟨rfl, rfl⟩⟩
    · cases heq
      rw [if_neg (by simp)] at h
      cases h
      exact ⟨fun l hl => absurd hl (by simp), fun hk => ⟨rfl, rfl⟩⟩
  · split at heq
    · -- oversized
      cases heq
      rw [if_neg (by simp)] at h
      cases h
      refine ⟨fun l hl => absurd hl (by simp), fun hk => ?_⟩
      exfalso
      rcases hk with h2 | h2 <;> simp at h2
    · -- read path
      split at heq
      · exact Except.noConfusion heq
      split at heq
      · exact Except.noConfusion heq
      split at heq
      · exact Except.noConfusion heq
      cases heq
      dsimp only at h
      split at h
      case isTrue =>
        split at h
        · -- chunked
          rename_i hchunk
          split at h
          · exact Except.noConfusion h
          split at h
          · exact Except.noConfusion h
          rename_i built hbc
          obtain ⟨bl, bpoll⟩ := built
          cases h
          constructor
          · intro l hl
            simp only [Option.some.injEq] at hl
            subst hl
            have htexts := buildChunks_ok_texts fp _ _ _ _ _ hbc
            refine ⟨?_, rfl, by simp⟩
            intro hnil
            rw [hnil] at htexts
            have hnn := chunkLinesKeepends_ne_nil content fp.chunk_max_lines (by omega)
            simp only [List.map_nil] at htexts
            exact hnn (List.map_eq_nil_iff.mp htexts.symm)
          · intro hk
            exfalso
            rcases hk with h2 | h2 <;> simp at h2
        · -- not chunked
          cases h
          refine ⟨fun l hl => absurd hl (by simp), fun hk => ?_⟩
          exfalso
          rcases hk with h2 | h2 <;> simp at h2
      case isFalse =>
        split at h
        · -- chunked
          rename_i hchunk
          split at h
          · exact Except.noConfusion h
          split at h
          · exact Except.noConfusion h
          rename_i built hbc
          obtain ⟨bl, bpoll⟩ := built
          cases h
          constructor
          · intro l hl
            simp only [Option.some.injEq] at hl
            subst hl
            have htexts := buildChunks_ok_texts fp _ _ _ _ _ hbc
            refine ⟨?_, rfl, by simp⟩
            intro hnil
            rw [hnil] at htexts
            have hnn := chunkLinesKeepends_ne_nil content fp.chunk_max_lines (by omega)
            simp only [List.map_nil] at htexts
            exact hnn (List.map_eq_nil_iff.mp htexts.symm)
          · intro hk
            exfalso
            rcases hk with h2 | h2 <;> simp at h2
        · -- not chunked
          cases h
          refine ⟨fun l hl => absurd hl (by simp), fun hk => ?_⟩
          exfalso
          rcases hk with h2 | h2 <;> simp at h2

theorem chunkLinesKeepends_concat (text : String) (maxLines : Nat)
    (hm : 1 ≤ maxLines) :
    pyJoin ((chunkLinesKeepends text maxLines).map Chunk.text) = text := by
  unfold chunkLinesKeepends
  split
  · rename_i he
    subst he
    apply String.ext
    simp [pyJoin]
  · rw [chunkLoop_texts_join _ (by omega), pyJoin_splitlinesKeependsStr]

theorem pyLineCount_ne_zero (text : String) (hne : text ≠ "") :
    pyLineCount text ≠ 0 := by
  have hd : text.data ≠ [] := by
    intro hh
    apply hne
    cases text
    simp at hh
    simp [hh]
  have hsl := splitlinesKeepends_ne_nil text.data hd
  unfold pyLineCount splitlinesKeependsStr
  simp only [List.length_map]
  exact fun hlen => hsl (List.length_eq_zero.mp hlen)

theorem chunkLinesKeepends_ranges (text : String) (maxLines : Nat)
    (hne : text ≠ "") (hm : 1 ≤ maxLines) :
    (chunkLinesKeepends text maxLines).map (fun c => (c.start_line, c.end_line)) =
      chunkRanges maxLines (pyLineCount text) 1 := by
  unfold chunkLinesKeepends
  rw [if_neg hne]
  exact chunkLoop_ranges maxLines (by omega) _ 1

theorem processBody_chunks_concat (fp : FileProcessor) (f : PyFile)
    (r : FileRecord) (l : List ChunkRec) (hmax : 1 ≤ fp.chunk_max_lines)
    (h : processBody fp f = .ok r) (hc : r.chunks = some l) :
    ∃ content, f.readResult = .ok content ∧
      pyJoin (l.map ChunkRec.text) = content := by
  unfold processBody at h
  simp only [fpCheckStop, bind, Except.bind] at h
  split at h
  · exact Except.noConfusion h
  split at h
  · exact Except.noConfusion h
  rename_i v heq
  obtain ⟨size_bytes, line_count, content, kind, poll⟩ := v
  split at heq
  · split at heq
    · cases heq
      rw [if_neg (by simp)] at h
      cases h
      exact absurd hc (by simp)
    · cases heq
      rw [if_neg (by simp)] at h
      cases h
      exact absurd hc (by simp)
  · split at heq
    · cases heq
      rw [if_neg (by simp)] at h
      cases h
      exact absurd hc (by simp)
    · split at heq
      · exact Except.noConfusion heq
      split at heq
      · exact Except.noConfusion heq
      split at heq
      · exact Except.noConfusion heq
      cases heq
      dsimp only at h
      rename_i hread _
      split at h
      case isTrue =>
        split at h
        · rename_i hchunk
          split at h
          · exact Except.noConfusion h
          split at h
          · exact Except.noConfusion h
          rename_i built hbc
          obtain ⟨bl, bpoll⟩ := built
          cases h
          simp only [Option.some.injEq] at hc
          subst hc
          refine ⟨content, hread, ?_⟩
          have htexts := buildChunks_ok_texts fp _ _ _ _ _ hbc
          rw [htexts]
          exact chunkLinesKeepends_concat content fp.chunk_max_lines hmax
        · cases h
          exact absurd hc (by simp)
      case isFalse =>
        split at h
        · rename_i hchunk
          split at h
          · exact Except.noConfusion h
          split at h
          · exact Except.noConfusion h
          rename_i built hbc
          obtain ⟨bl, bpoll⟩ := built
          cases h
          simp only [Option.some.injEq] at hc
          subst hc
          refine ⟨content, hread, ?_⟩
          have htexts := buildChunks_ok_texts fp _ _ _ _ _ hbc
          rw [htexts]
          exact chunkLinesKeepends_concat content fp.chunk_max_lines hmax
        · cases h
          exact absurd hc (by simp)

theorem processFileContent_excluded (fp : FileProcessor) (f : PyFile)
    (hexc : fp.is_custom_excluded f.path = true)
    (hstop : stopSet fp 1 = false) :
    ∃ r, processFileContent fp f = some r ∧ r.content = "" ∧ r.chunks = none ∧
      (if pyContainsSub (pyStrip fp.exclusion_mode) "Names" = true
       then r.kind = "list_name_only" ∧ r.size_bytes = 0
       else r.kind = "metadata_only" ∧
         r.size_bytes = fp.get_file_size f.path) := by
  have h0 : stopSet fp 0 = false := stopSet_mono (by omega) hstop
  unfold processFileContent processBody
  simp only [fpCheckStop, hstop, h0, Bool.false_eq_true, if_false, bind,
    Except.bind, hexc, if_true]
  by_cases hN : pyContainsSub (pyStrip fp.exclusion_mode) "Names" = true
  · simp only [hN, if_true]
    rw [if_neg (by simp)]
    exact ⟨_, rfl, rfl, rfl, rfl, rfl⟩
  · simp only [hN, Bool.false_eq_true, if_false]
    rw [if_neg (by simp)]
    exact ⟨_, rfl, rfl, rfl, rfl, rfl⟩

theorem stopSet_of_plan_none {fp : FileProcessor} (hplan : fp.stop_plan = none) :
    ∀ k, stopSet fp k = false := by
  intro k
  simp [stopSet, hplan]

theorem processBody_read_error (fp : FileProcessor) (f : PyFile)
    (en em : String) (hplan : fp.stop_plan = none)
    (hexc : fp.is_custom_excluded f.path = false)
    (hsize : fp.get_file_size f.path ≤ fp.oversize_bytes)
    (hread : f.readResult = .error (.exn en em)) :
    processBody fp f = .error (.exn en em) := by
  have hstop := stopSet_of_plan_none hplan
  unfold processBody
  simp only [fpCheckStop, hstop, Bool.false_eq_true, if_false, bind,
    Except.bind, hexc, hread]
  rw [if_neg (by omega)]

theorem processFileContent_stopped (fp : FileProcessor) (f : PyFile)
    (h : stopSet fp 0 = true) : processFileContent fp f = none := by
  unfold processFileContent
  rw [h]
  simp

theorem processFileContent_interrupted (fp : FileProcessor) (f : PyFile)
    (h : processBody fp f = .error .interrupted) :
    processFileContent fp f = none := by
  unfold processFileContent
  split
  · rfl
  · rw [h]

theorem processFileContent_error_record (fp : FileProcessor) (f : PyFile)
    (en em : String) (hplan : fp.stop_plan = none)
    (hexc : fp.is_custom_excluded f.path = false)
    (hsize : fp.get_file_size f.path ≤ fp.oversize_bytes)
    (hread : f.readResult = .error (.exn en em)) :
    processFileContent fp f =
      some ⟨pyName f.path, "", 0, 0, "error", fp.sha (pyName f.path), none,
            en ++ ": " ++ em⟩ := by
  unfold processFileContent
  rw [stopSet_of_plan_none hplan 0]
  simp only [Bool.false_eq_true, if_false]
  rw [processBody_read_error fp f en em hplan hexc hsize hread]

theorem processFileContent_some_invariant (fp : FileProcessor) (f : PyFile)
    (r : FileRecord) (hmax : 1 ≤ fp.chunk_max_lines)
    (h : processFileContent fp f = some r) :
    (∀ l, r.chunks = some l → l ≠ [] ∧ r.content = "" ∧
       (r.kind = "source" ∨ r.kind = "markdown")) ∧
    ((r.kind = "metadata_only" ∨ r.kind = "list_name_only") →
       r.chunks = none ∧ r.content = "") := by
  unfold processFileContent at h
  split at h
  · exact absurd h (by simp)
  · split at h
    · rename_i r2 heq
      cases h
      exact processBody_ok_invariant fp f _ hmax heq
    · exact absurd h (by simp)
    · rename_i en em heq
      cases h
      exact ⟨fun l hl => absurd hl (by simp),
             fun hk => by rcases hk with h2 | h2 <;> simp at h2⟩


theorem intercalate_go_data (s : String) :
    ∀ (bs : List String) (acc : String),
      (String.intercalate.go acc s bs).data =
        acc.data ++ (bs.map (fun b => s.data ++ b.data)).flatten := by
  intro bs
  induction bs with
  | nil => intro acc; simp [String.intercalate.go]
  | cons b bs ih =>
    intro acc
    rw [String.intercalate.go]
    rw [ih]
    simp [String.data_append]

theorem intercalate_data_append (s : String) (a r : List String) :
    ∃ t, (String.intercalate s (a ++ r)).data =
      (String.intercalate s a).data ++ t := by
  cases a with
  | nil =>
    exact ⟨(String.intercalate s r).data, by simp [String.intercalate]⟩
  | cons a0 as =>
    refine ⟨((r.map (fun b => s.data ++ b.data)).flatten), ?_⟩
    simp only [List.cons_append, String.intercalate]
    rw [intercalate_go_data, intercalate_go_data]
    simp

theorem pyStartsWith_pathStr_of_seg (base p : PyPath)
    (h : base.segs.isPrefixOf p.segs = true) :
    pyStartsWith (pathStr p) (pathStr base) = true := by
  have hpre : base.segs <+: p.segs := List.isPrefixOf_iff_prefix.mp h
  obtain ⟨r, hr⟩ := hpre
  unfold pyStartsWith pathStr
  rw [List.isPrefixOf_iff_prefix]
  obtain ⟨t, ht⟩ := intercalate_data_append "/" base.segs r
  refine ⟨t, ?_⟩
  rw [← hr]
  simp [String.data_append, ht]

theorem ruleApplies_of_relativeTo (p base : PyPath) (rel : String)
    (h : relativeTo p base = some rel) : ruleApplies base p = true := by
  unfold relativeTo at h
  split at h
  · rename_i hpre
    exact pyStartsWith_pathStr_of_seg base p hpre
  · exact Option.noConfusion h

theorem mem_pyParents_iff (p exc : PyPath) :
    exc ∈ pyParents p ↔
      (exc.segs <+: p.segs ∧ exc.segs.length < p.segs.length) := by
  unfold pyParents
  rw [List.mem_map]
  constructor
  · rintro ⟨i, hi, heq⟩
    rw [List.mem_range] at hi
    subst heq
    refine ⟨List.take_prefix _ _, ?_⟩
    simp only [List.length_take]
    omega
  · rintro ⟨hpre, hlen⟩
    refine ⟨p.segs.length - 1 - exc.segs.length, ?_, ?_⟩
    · rw [List.mem_range]; omega
    · have htake : exc.segs = p.segs.take exc.segs.length :=
        List.prefix_iff_eq_take.mp hpre
      have harith : p.segs.length - 1 - (p.segs.length - 1 - exc.segs.length)
          = exc.segs.length := by omega
      rw [harith, ← htake]

theorem isCustomExcluded_iff (excludes : List PyPath) (p : PyPath) :
    isCustomExcluded excludes p = true ↔
      ∃ exc ∈ excludes, exc.segs.isPrefixOf p.segs = true := by
  unfold isCustomExcluded
  split
  · rename_i hnil
    subst hnil
    simp
  · rw [List.any_eq_true]
    constructor
    · rintro ⟨exc, hmem, hcond⟩
      rw [Bool.or_eq_true] at hcond
      refine ⟨exc, hmem, ?_⟩
      rw [List.isPrefixOf_iff_prefix]
      rcases hcond with hq | hpar
      · have : p = exc := of_decide_eq_true hq
        subst this
        exact List.prefix_refl _
      · have hmemp : exc ∈ pyParents p := by
          exact List.elem_iff.mp hpar
        exact ((mem_pyParents_iff p exc).mp hmemp).1
    · rintro ⟨exc, hmem, hpre⟩
      refine ⟨exc, hmem, ?_⟩
      rw [Bool.or_eq_true]
      have hpre2 : exc.segs <+: p.segs := List.isPrefixOf_iff_prefix.mp hpre
      by_cases heq : exc.segs = p.segs
      · left
        have : p = exc := by
          cases p; cases exc; simp_all
        exact decide_eq_true this
      · right
        have hlt : exc.segs.length < p.segs.length :=
          lt_of_le_of_ne hpre2.length_le
            (fun hl => heq (hpre2.eq_of_length hl))
        exact List.elem_iff.mpr ((mem_pyParents_iff p exc).mpr ⟨hpre2, hlt⟩)

theorem matchRule_dir_deep (rule : IgnoreRule) (p : PyPath) (rel : String)
    (hdir : rule.dir_only = true)
    (hanch : (rule.anchored || rule.pattern.data.contains '/') = true)
    (hrel : relativeTo p rule.base = some rel)
    (hm : rel = rule.pattern ∨ pyStartsWith rel (rule.pattern ++ "/") = true) :
    matchRule rule p true = true := by
  unfold matchRule
  rw [hrel]
  simp only [hdir, if_true, Bool.not_true, Bool.false_eq_true, if_false]
  rw [if_pos hanch]
  split
  · rfl
  · rcases hm with hm | hm
    · simp [hm]
    · simp [hm]

theorem splitlinesKeepends_an (rest : List Char) :
    splitlinesKeepends ('a' :: '\n' :: rest) =
      ['a', '\n'] :: splitlinesKeepends rest := by
  cases rest with
  | nil => rfl
  | cons c rest2 =>
    rw [splitlinesKeepends]
    rw [if_neg (by decide), if_neg (by decide)]
    have h2 : splitlinesKeepends ('\n' :: c :: rest2) =
        ['\n'] :: splitlinesKeepends (c :: rest2) := by
      rw [splitlinesKeepends]
      rw [if_neg (by simp), if_pos (by decide)]
    rw [h2]

theorem splitlinesKeepends_replicate_an (n : Nat) :
    splitlinesKeepends ((List.replicate n (['a', '\n'])).flatten) =
      List.replicate n ['a', '\n'] := by
  induction n with
  | zero => rfl
  | succ n ih =>
    rw [List.replicate_succ, List.flatten_cons]
    simp only [List.cons_append, List.nil_append]
    rw [splitlinesKeepends_an, ih]

theorem pyLineCount_kilo :
    pyLineCount (String.mk ((List.replicate 1000 ['a', '\n']).flatten)) = 1000 := by
  unfold pyLineCount splitlinesKeependsStr
  rw [show (String.mk ((List.replicate 1000 ['a', '\n']).flatten)).data =
      (List.replicate 1000 ['a', '\n']).flatten from rfl]
  rw [splitlinesKeepends_replicate_an]
  rw [List.length_map, List.length_replicate]


/-! # Witness fixtures

Concrete processors, files and records used by the witness theorems. -/

/-- A processor that chunks at one line, used to exercise the chunking path. -/
def fpW : FileProcessor :=
  ⟨⟨["r"]⟩, 1, 100, none, fun _ => false, "Fully Exclude", fun _ => 5, fun _ => "h"⟩

/-- A two-line file under `fpW`'s root. -/
def fW : PyFile := ⟨⟨["r", "a.txt"]⟩, .ok "x\ny\n"⟩

/-- The record `process_file_content` produces for `fW` under `fpW`. -/
def rW : FileRecord :=
  ⟨"a.txt", ".txt", 5, 2, "source", "h",
   some [⟨"h:1-1", 1, 1, "x\n"⟩, ⟨"h:2-2", 2, 2, "y\n"⟩], ""⟩

theorem chunksW_eval :
    chunkLinesKeepends "x\ny\n" 1 = [⟨1, 1, "x\n"⟩, ⟨2, 2, "y\n"⟩] := by
  simp [chunkLinesKeepends, chunkLoop, splitlinesKeependsStr, splitlinesKeepends,
    pyJoin, isLineBreak]

theorem processW : processFileContent fpW fW = some rW := by
  unfold processFileContent processBody
  simp [fpW, fW, rW, stopSet, fpCheckStop, bind, Except.bind, buildChunks,
    chunksW_eval, pyLineCount, splitlinesKeependsStr, splitlinesKeepends,
    isLineBreak, pySuffix, pyLower, pyName, relativeTo, pathStr, pyStrip,
    pyContainsSub, isPySpace]
  decide

/-- A processor whose custom exclusion runs in name-only mode. -/
def fpNames : FileProcessor :=
  ⟨⟨["r"]⟩, 350, 100, none, fun _ => true, "List Folders & Files Names",
   fun _ => 7, fun _ => "h"⟩

/-- A processor whose custom exclusion runs in metadata-only mode. -/
def fpMeta : FileProcessor :=
  ⟨⟨["r"]⟩, 350, 100, none, fun _ => true, "Index w/ Metadata (Skip Content)",
   fun _ => 7, fun _ => "h"⟩

def fScratch : PyFile := ⟨⟨["r", "s.txt"]⟩, .ok "hello"⟩

/-- Stop requested before the call starts. -/
def fpStopNow : FileProcessor :=
  ⟨⟨["r"]⟩, 350, 100, some 0, fun _ => false, "", fun _ => 1, fun _ => "h"⟩

/-- Stop requested at the first in-body poll. -/
def fpStopMid : FileProcessor :=
  ⟨⟨["r"]⟩, 350, 100, some 1, fun _ => false, "", fun _ => 1, fun _ => "h"⟩

def fpPlain : FileProcessor :=
  ⟨⟨["r"]⟩, 350, 100, none, fun _ => false, "", fun _ => 1, fun _ => "h"⟩

/-- A file whose OS read raises. -/
def fBad : PyFile := ⟨⟨["r", "bad.bin"]⟩, .error (.exn "OSError" "boom")⟩

def fpOversize : FileProcessor :=
  ⟨⟨["r"]⟩, 350, 100, none, fun _ => false, "", fun _ => 200, fun _ => "h"⟩

def fBig : PyFile := ⟨⟨["r", "big.bin"]⟩, .ok ""⟩

/-- The oversized record produced for `fBig` under `fpOversize`. -/
def rBig : FileRecord :=
  ⟨"big.bin", ".bin", 200, 0, "oversized", "h", none,
   "SKIPPED_OVERSIZED: " ++ toString 200 ++ " bytes"⟩

/-! # Claim theorems -/

/-- C1 counterexample: with `max_output_files = 2` and an index requested the
slot budget `S` clamps to 1, yet for an input with root files and one
surviving folder the planner emits 2 volumes (ROOT and OTHERS), and
2 volumes + instructions + index = 4 output files, exceeding both `S`
volumes and `S + 2 = 3` total files (and the configured maximum 2). -/
theorem planDumps_exceeds_budget_cex :
    slotBudget ⟨2, true, "r", id⟩ = 1 ∧
    (planDumps ⟨2, true, "r", id⟩ [⟨["r", "x.txt"]⟩]
        [⟨"a", [⟨["r", "a", "y.txt"]⟩], 10⟩]).length = 2 ∧
    ¬ (((planDumps ⟨2, true, "r", id⟩ [⟨["r", "x.txt"]⟩]
        [⟨"a", [⟨["r", "a", "y.txt"]⟩], 10⟩]).length : Int) ≤
          slotBudget ⟨2, true, "r", id⟩) ∧
    totalOutputCount ⟨2, true, "r", id⟩ [⟨["r", "x.txt"]⟩]
        [⟨"a", [⟨["r", "a", "y.txt"]⟩], 10⟩] = 4 ∧
    maxOutputFiles ⟨2, true, "r", id⟩ = 2 := by
  decide

/-- C1 (amended): for any input the volume-planning phase of
`DumpWorker.run` plans at most `max S 2` volumes — at most `S` whenever
`S ≥ 2`, and at most 2 when the clamped budget is `S = 1` (root files can
take the last slot while overflow folders still get an OTHERS volume) —
and therefore at most `max S 2 + 2` output files in total (volumes plus
instructions plus optional index). -/
theorem planDumps_bounded_amended (cfg : PlanConfig) (rootFiles : List PyPath)
    (folders : List AnalyzedFolder) :
    ((planDumps cfg rootFiles folders).length : Int) ≤ max (slotBudget cfg) 2 ∧
    totalOutputCount cfg rootFiles folders ≤ max (slotBudget cfg) 2 + 2 := by
  have h := planDumps_length_le cfg rootFiles folders
  refine ⟨h, ?_⟩
  unfold totalOutputCount
  split <;> omega

/-- C2: `match_ignore` evaluates the applicable rules in file-discovery
order and the last rule that applies and matches determines the result,
with a negated rule flipping the outcome to not-ignored; in particular,
for a path matched by an ignoring rule `a` and subsequently by a negating
rule `b` whose scope directory lies strictly deeper, `match_ignore`
returns `false`. -/
theorem matchIgnore_last_match_wins :
    (∀ (rules : List IgnoreRule) (p : PyPath) (d : Bool),
       matchIgnore rules p d =
         ((rules.filter (fun rule => ruleHits rule p d)).getLast?).elim false
           (fun rule => !rule.neg)) ∧
    (∀ (l1 l2 : List IgnoreRule) (a b : IgnoreRule) (p : PyPath) (d : Bool),
       a ∈ l1 → ruleHits a p d = true → a.neg = false →
       ruleHits b p d = true → b.neg = true →
       a.base.segs.isPrefixOf b.base.segs = true → b.base ≠ a.base →
       (∀ rule ∈ l2, ruleHits rule p d = false) →
       matchIgnore (l1 ++ b :: l2) p d = false) := by
  constructor
  · exact matchIgnore_eq_lastHit
  · intro l1 l2 a b p d ha hhitA hnegA hhitB hnegB hdeep hne hl2
    rw [matchIgnore_eq_lastHit, List.filter_append]
    have hnil : l2.filter (fun rule => ruleHits rule p d) = [] := by
      rw [List.filter_eq_nil_iff]
      intro rule hr
      simp [hl2 rule hr]
    simp only [List.filter_cons, hhitB, if_true, hnil]
    rw [List.getLast?_concat]
    simp [hnegB]

theorem matchIgnore_last_match_wins_witness :
    matchIgnore [⟨"x.txt", false, false, false, ⟨["repo"]⟩⟩,
                 ⟨"x.txt", true, false, false, ⟨["repo", "sub"]⟩⟩]
      ⟨["repo", "sub", "x.txt"]⟩ false = false :=
  matchIgnore_last_match_wins.2 [⟨"x.txt", false, false, false, ⟨["repo"]⟩⟩] []
    ⟨"x.txt", false, false, false, ⟨["repo"]⟩⟩
    ⟨"x.txt", true, false, false, ⟨["repo", "sub"]⟩⟩
    ⟨["repo", "sub", "x.txt"]⟩ false
    (by decide) (by decide) rfl (by decide) rfl (by decide) (by decide)
    (fun rule hr => absurd hr (by simp))

/-- C3: an ignore rule contributes to `match_ignore` only for paths inside
the subtree of its scope directory: for any path whose segments do not
extend the rule's base segments, `_match_rule` is `false` (the
`relative_to` guard fails even when the raw string-prefix test of
`_rule_applies` passes, as for sibling directories like `foo` vs `foo2`),
and deleting the rule from the loaded list leaves the verdict unchanged. -/
theorem rule_scope_limited_to_subtree (l1 l2 : List IgnoreRule)
    (rule : IgnoreRule) (p : PyPath) (d : Bool)
    (h : rule.base.segs.isPrefixOf p.segs = false) :
    matchRule rule p d = false ∧
    matchIgnore (l1 ++ rule :: l2) p d = matchIgnore (l1 ++ l2) p d :=
  ⟨matchRule_of_not_subtree rule p d h,
   matchIgnore_outside_rule_irrelevant l1 l2 rule p d h⟩

theorem rule_scope_limited_to_subtree_witness :
    matchRule ⟨"*", false, false, false, ⟨["repo", "foo"]⟩⟩
      ⟨["repo", "foo2", "x.txt"]⟩ false = false ∧
    matchIgnore ([] ++ ⟨"*", false, false, false, ⟨["repo", "foo"]⟩⟩ :: [])
        ⟨["repo", "foo2", "x.txt"]⟩ false =
      matchIgnore ([] ++ []) ⟨["repo", "foo2", "x.txt"]⟩ false :=
  rule_scope_limited_to_subtree [] [] ⟨"*", false, false, false, ⟨["repo", "foo"]⟩⟩
    ⟨["repo", "foo2", "x.txt"]⟩ false (by decide)

/-- C4: concatenating in order the `text` fields of the chunks produced by
`chunk_lines_keepends(text, max_lines)` (for any `max_lines ≥ 1`)
reproduces the original text exactly; and hence for the chunks attached to
a record by `process_file_content`, the concatenation reproduces the file
content that was read. -/
theorem chunk_concat_roundtrip :
    (∀ (text : String) (maxLines : Nat), 1 ≤ maxLines →
       pyJoin ((chunkLinesKeepends text maxLines).map Chunk.text) = text) ∧
    (∀ (fp : FileProcessor) (f : PyFile) (r : FileRecord) (l : List ChunkRec),
       1 ≤ fp.chunk_max_lines →
       processFileContent fp f = some r → r.chunks = some l →
       ∃ content, f.readResult = .ok content ∧
         pyJoin (l.map ChunkRec.text) = content) := by
  constructor
  · exact fun text maxLines hm => chunkLinesKeepends_concat text maxLines hm
  · intro fp f r l hm h hc
    unfold processFileContent at h
    split at h
    · exact absurd h (by simp)
    · split at h
      · rename_i heq
        cases h
        exact processBody_chunks_concat fp f _ l hm heq hc
      · exact absurd h (by simp)
      · rename_i en em heq
        cases h
        exact absurd hc (by simp)

theorem chunk_concat_roundtrip_witness :
    ((1 : Nat) ≤ 1 ∧
      pyJoin ((chunkLinesKeepends "x\ny\n" 1).map Chunk.text) = "x\ny\n") ∧
    (∃ content, fW.readResult = Except.ok content ∧
      pyJoin (([⟨"h:1-1", 1, 1, "x\n"⟩, ⟨"h:2-2", 2, 2, "y\n"⟩] :
          List ChunkRec).map ChunkRec.text) = content) :=
  ⟨⟨le_refl 1, chunk_concat_roundtrip.1 "x\ny\n" 1 (le_refl 1)⟩,
   chunk_concat_roundtrip.2 fpW fW rW _ (le_refl 1) processW rfl⟩

/-- C5: for a nonempty text and `max_lines ≥ 1` the chunks' line ranges form
a consecutive partition of lines `1 .. lineCount`: they equal the
`chunkRanges` arithmetic of the line count, are consecutive starting at
line 1, each spans between one and `max_lines` lines, and the last chunk
ends at the total line count (the witness instantiates the 1000-line /
threshold-350 scenario, giving ranges `[1-350], [351-700], [701-1000]`). -/
theorem chunk_ranges_partition (text : String) (maxLines : Nat)
    (hne : text ≠ "") (hm : 1 ≤ maxLines) :
    ((chunkLinesKeepends text maxLines).map (fun c => (c.start_line, c.end_line)) =
        chunkRanges maxLines (pyLineCount text) 1) ∧
    isConsecutiveFrom 1
      ((chunkLinesKeepends text maxLines).map (fun c => (c.start_line, c.end_line))) ∧
    (∀ c ∈ chunkLinesKeepends text maxLines,
        c.start_line ≤ c.end_line ∧ c.end_line + 1 - c.start_line ≤ maxLines) ∧
    ((chunkLinesKeepends text maxLines).getLast?).map (fun c => c.end_line) =
      some (pyLineCount text) := by
  have hR := chunkLinesKeepends_ranges text maxLines hne hm
  refine ⟨hR, ?_, ?_, ?_⟩
  · rw [hR]
    exact chunkRanges_consecutive maxLines _ _
  · intro c hc
    have hmem : (c.start_line, c.end_line) ∈
        chunkRanges maxLines (pyLineCount text) 1 := by
      rw [← hR]
      exact List.mem_map_of_mem _ hc
    exact chunkRanges_spans maxLines _ _ _ hmem
  · have h4 := chunkRanges_last_end maxLines (by omega) (pyLineCount text) 1
      (pyLineCount_ne_zero text hne)
    rw [← hR, List.getLast?_map, Option.map_map] at h4
    have harith : 1 + pyLineCount text - 1 = pyLineCount text := by omega
    rw [harith] at h4
    exact h4

theorem chunk_ranges_partition_witness :
    (String.mk ((List.replicate 1000 ['a', '\n']).flatten) ≠ "" ∧ (1 : Nat) ≤ 350) ∧
    (chunkLinesKeepends (String.mk ((List.replicate 1000 ['a', '\n']).flatten)) 350).map
        (fun c => (c.start_line, c.end_line)) = [(1, 350), (351, 700), (701, 1000)] := by
  have hkilo := pyLineCount_kilo
  have hne : String.mk ((List.replicate 1000 ['a', '\n']).flatten) ≠ "" := by
    intro h
    rw [h] at hkilo
    simp [pyLineCount, splitlinesKeependsStr, splitlinesKeepends] at hkilo
  refine ⟨⟨hne, by omega⟩, ?_⟩
  have h := (chunk_ranges_partition _ 350 hne (by omega)).1
  rw [h, hkilo]
  simp [chunkRanges]

/-- C6: a file under a custom exclusion gets a record with empty content
and no chunks; in name-only mode (an exclusion-mode string containing
"Names") the kind is `list_name_only` with `size_bytes = 0`, otherwise the
kind is `metadata_only` with the measured size reported. -/
theorem exclusion_mode_boundary (fp : FileProcessor) (f : PyFile)
    (hexc : fp.is_custom_excluded f.path = true)
    (hstop : stopSet fp 1 = false) :
    ∃ r, processFileContent fp f = some r ∧ r.content = "" ∧ r.chunks = none ∧
      (if pyContainsSub (pyStrip fp.exclusion_mode) "Names" = true
       then r.kind = "list_name_only" ∧ r.size_bytes = 0
       else r.kind = "metadata_only" ∧
         r.size_bytes = fp.get_file_size f.path) :=
  processFileContent_excluded fp f hexc hstop

theorem exclusion_mode_boundary_witness :
    (∃ r, processFileContent fpNames fScratch = some r ∧ r.content = "" ∧
      r.chunks = none ∧
      (if pyContainsSub (pyStrip fpNames.exclusion_mode) "Names" = true
       then r.kind = "list_name_only" ∧ r.size_bytes = 0
       else r.kind = "metadata_only" ∧
         r.size_bytes = fpNames.get_file_size fScratch.path)) ∧
    (∃ r, processFileContent fpMeta fScratch = some r ∧ r.content = "" ∧
      r.chunks = none ∧
      (if pyContainsSub (pyStrip fpMeta.exclusion_mode) "Names" = true
       then r.kind = "list_name_only" ∧ r.size_bytes = 0
       else r.kind = "metadata_only" ∧
         r.size_bytes = fpMeta.get_file_size fScratch.path)) :=
  ⟨exclusion_mode_boundary fpNames fScratch rfl rfl,
   exclusion_mode_boundary fpMeta fScratch rfl rfl⟩

/-- C7 counterexample: for the directory-only rule `build/` (no anchor, no
slash in the pattern) scoped at `/r`, the path `/r/build/x.txt` (a file)
and the directory `/r/build/sub` both have relative-from-scope paths
starting with `build/`, yet `match_ignore` returns `false` for both: the
dir-only branch rejects non-directories outright, and for directories a
pattern without `/` is matched against the basename only, so the claimed
equal-or-prefix rule does not hold for every directory-only rule. -/
theorem dir_rule_prefix_cex :
    (relativeTo ⟨["r", "build", "x.txt"]⟩ ⟨["r"]⟩ = some "build/x.txt" ∧
     pyStartsWith "build/x.txt" ("build" ++ "/") = true ∧
     matchIgnore [⟨"build", false, true, false, ⟨["r"]⟩⟩]
       ⟨["r", "build", "x.txt"]⟩ false = false) ∧
    (relativeTo ⟨["r", "build", "sub"]⟩ ⟨["r"]⟩ = some "build/sub" ∧
     pyStartsWith "build/sub" ("build" ++ "/") = true ∧
     matchIgnore [⟨"build", false, true, false, ⟨["r"]⟩⟩]
       ⟨["r", "build", "sub"]⟩ true = false) := by
  decide

/-- C7 (amended): for a directory-only rule that is anchored or whose
pattern contains `/`, a DIRECTORY path (`is_dir = true`) inside the rule's
scope whose relative-from-scope path equals the pattern or starts with the
pattern followed by `/` is matched by `_match_rule`; with such a
non-negated rule loaded, `match_ignore` ignores the directory. -/
theorem dir_rule_prefix_amended (rule : IgnoreRule) (p : PyPath) (rel : String)
    (hdir : rule.dir_only = true)
    (hanch : (rule.anchored || rule.pattern.data.contains '/') = true)
    (hrel : relativeTo p rule.base = some rel)
    (hm : rel = rule.pattern ∨ pyStartsWith rel (rule.pattern ++ "/") = true)
    (hneg : rule.neg = false) :
    matchRule rule p true = true ∧ matchIgnore [rule] p true = true := by
  have hmr := matchRule_dir_deep rule p rel hdir hanch hrel hm
  refine ⟨hmr, ?_⟩
  unfold matchIgnore
  simp only [List.foldl_cons, List.foldl_nil]
  simp [ruleApplies_of_relativeTo p rule.base rel hrel, hmr, hneg]

theorem dir_rule_prefix_amended_witness :
    matchRule ⟨"build", false, true, true, ⟨["r"]⟩⟩
      ⟨["r", "build", "sub"]⟩ true = true ∧
    matchIgnore [⟨"build", false, true, true, ⟨["r"]⟩⟩]
      ⟨["r", "build", "sub"]⟩ true = true :=
  dir_rule_prefix_amended ⟨"build", false, true, true, ⟨["r"]⟩⟩
    ⟨["r", "build", "sub"]⟩ "build/sub" rfl (by decide) (by decide)
    (Or.inr (by decide)) rfl

/-- C8: `process_file_content` never lets an exception escape: its result
type is an optional record; if cancellation is requested before the call
it returns `None`, if the body raises the cancellation `InterruptedError`
it returns `None`, and an OS read failure (any non-cancellation exception)
yields a record of kind `error` whose content is the exception's class
name and message. -/
theorem process_errors_never_escape (fp : FileProcessor) (f : PyFile) :
    (stopSet fp 0 = true → processFileContent fp f = none) ∧
    (processBody fp f = .error .interrupted → processFileContent fp f = none) ∧
    (∀ en em, fp.stop_plan = none →
      fp.is_custom_excluded f.path = false →
      fp.get_file_size f.path ≤ fp.oversize_bytes →
      f.readResult = .error (.exn en em) →
      processFileContent fp f =
        some ⟨pyName f.path, "", 0, 0, "error", fp.sha (pyName f.path), none,
              en ++ ": " ++ em⟩) :=
  ⟨processFileContent_stopped fp f,
   processFileContent_interrupted fp f,
   fun en em hplan hexc hsize hread =>
     processFileContent_error_record fp f en em hplan hexc hsize hread⟩

theorem process_errors_never_escape_witness :
    processFileContent fpStopNow fBad = none ∧
    processFileContent fpStopMid fBad = none ∧
    processFileContent fpPlain fBad =
      some ⟨pyName fBad.path, "", 0, 0, "error", fpPlain.sha (pyName fBad.path),
            none, "OSError" ++ ": " ++ "boom"⟩ :=
  ⟨(process_errors_never_escape fpStopNow fBad).1 rfl,
   (process_errors_never_escape fpStopMid fBad).2.1 rfl,
   (process_errors_never_escape fpPlain fBad).2.2 "OSError" "boom" rfl rfl
     (by decide) rfl⟩

/-- C9: every record produced by `process_file_content` satisfies: for
kinds `source`/`markdown`, whenever `chunks` is present it is non-empty
and `content` is the empty string; for kinds `metadata_only` and
`list_name_only`, both `chunks` and `content` are empty. -/
theorem record_content_chunks_invariant (fp : FileProcessor) (f : PyFile)
    (r : FileRecord) (hmax : 1 ≤ fp.chunk_max_lines)
    (h : processFileContent fp f = some r) :
    ((r.kind = "source" ∨ r.kind = "markdown") →
       ∀ l, r.chunks = some l → l ≠ [] ∧ r.content = "") ∧
    ((r.kind = "metadata_only" ∨ r.kind = "list_name_only") →
       r.chunks = none ∧ r.content = "") := by
  have hinv := processFileContent_some_invariant fp f r hmax h
  exact ⟨fun _ l hl => ⟨(hinv.1 l hl).1, (hinv.1 l hl).2.1⟩, hinv.2⟩

theorem record_content_chunks_invariant_witness :
    (1 ≤ fpOversize.chunk_max_lines ∧
     processFileContent fpOversize fBig = some rBig) ∧
    (((rBig.kind = "source" ∨ rBig.kind = "markdown") →
        ∀ l, rBig.chunks = some l → l ≠ [] ∧ rBig.content = "") ∧
     ((rBig.kind = "metadata_only" ∨ rBig.kind = "list_name_only") →
        rBig.chunks = none ∧ rBig.content = "")) :=
  ⟨⟨by decide, rfl⟩,
   record_content_chunks_invariant fpOversize fBig rBig (by decide) rfl⟩

/-- C10: `is_custom_excluded(p)` returns `True` exactly when the resolved
path equals one of the configured custom-exclusion paths or one of them is
an ancestor directory of it — i.e. exactly when some configured path's
segments are a prefix of `p`'s segments — so a custom exclusion applies
recursively to everything beneath the excluded path and never to any path
outside it. -/
theorem custom_exclusion_subtree_iff (excludes : List PyPath) (p : PyPath) :
    isCustomExcluded excludes p = true ↔
      ∃ exc ∈ excludes, exc.segs.isPrefixOf p.segs = true :=
  isCustomExcluded_iff excludes p

end SmartDumper
